import Mathlib

/-!
# A shallow embedding of the `drone-core` heap allocator

This file embeds `src/heap/allocator.rs` — the pool dispatch logic of the
`drone-core` heap — into Lean and proves the specified properties of
`binary_search`, `alloc`, `dealloc`, `grow` and `shrink`.

Modelling conventions:

* Memory is byte-addressed, `Mem := Nat → Nat`; raw pointers are plain
  addresses (`Nat`).  The allocator mutates pools through interior
  mutability behind `&self`, so every operation here threads the pool table
  (`Heap`) and the memory explicitly and returns the updated pair.
* The `Pool` type and the two `Fits` implementations live in
  `src/heap/pool.rs`, which is not among the provided sources; they are
  modelled from the spec (see the doc comments starting with
  `Modelled from the spec:`).
* The two loops of the source (the `while right > left` search loop and the
  `for pool_idx in start..POOL_COUNT` scan) are modelled as structural
  recursion on an explicit fuel argument.  The callers supply fuel
  `h.length`, which always dominates the loop measure (`right - left`
  strictly decreases; the scan advances by one index per step), so the fuel
  is never exhausted; the probe theorems below make this bound precise.
-/

/-- Byte-addressed memory: each address holds one byte value. -/
abbrev Mem := Nat → Nat

/-- Machine word size in bytes; the crate targets 32-bit embedded platforms. -/
def wordSize : Nat := 4

/-- Model of `ptr::copy_nonoverlapping(src, dst, count)`: byte `dst + k` receives byte
`src + k` for every `k < count`; all other addresses are untouched. -/
def copyBytes (m : Mem) (src dst count : Nat) : Mem := fun x =>
  if dst ≤ x ∧ x < dst + count then m (src + (x - dst)) else m x

/-- Little-endian store of the machine word `v` at address `a`. -/
def writeWord (m : Mem) (a v : Nat) : Mem := fun x =>
  if a ≤ x ∧ x < a + wordSize then v / 256 ^ (x - a) % 256 else m x

/-- Modelled from the spec: the `Pool` record of `src/heap/pool.rs` (not among
the provided sources).  `free` is the pool's intrusive free list read off from
`free_head` and the next-links stored in freed blocks, most recently freed
address first; `cursor` counts the blocks ever bump-allocated. -/
structure Pool where
  base : Nat
  size : Nat
  capacity : Nat
  free : List Nat
  cursor : Nat
deriving DecidableEq

/-- Modelled from the spec: `Pool::alloc` pops the free list when it is
non-empty (LIFO reuse), otherwise bump-allocates `base + cursor·size` while
`cursor < capacity`, otherwise reports exhaustion. -/
def Pool.alloc (p : Pool) : Option (Nat × Pool) :=
  match p.free with
  | addr :: rest => some (addr, { p with free := rest })
  | [] =>
    if p.cursor < p.capacity then
      some (p.base + p.cursor * p.size, { p with cursor := p.cursor + 1 })
    else
      none

/-- The `free_head` word of the modelled pool: the most recently freed address,
or `0` (null) when the free list is empty. -/
def Pool.freeHead (p : Pool) : Nat := p.free.headD 0

/-- Modelled from the spec: `Pool::dealloc` writes the current `free_head` into
the first word at `addr`, then makes `addr` the new free head. -/
def Pool.dealloc (p : Pool) (m : Mem) (addr : Nat) : Pool × Mem :=
  ({ p with free := addr :: p.free }, writeWord m addr p.freeHead)

/-- The `core::alloc::Layout` type: a size/alignment request. -/
structure Layout where
  size : Nat
  align : Nat
deriving DecidableEq

/-- Model of `Layout::dangling()`: the well-aligned non-null address used for zero-size
blocks (numerically the alignment). -/
def Layout.dangling (l : Layout) : Nat := l.align

/-- The `core::alloc::AllocErr` type: the single error value of the allocator API;
the source returns it both for exhaustion and for unsupported placement. -/
inductive AllocErr
  | mk
deriving DecidableEq

/-- The `core::alloc::AllocInit` policy. -/
inductive AllocInit
  | Uninitialized
  | Zeroed
deriving DecidableEq

/-- The `core::alloc::MemoryBlock` handle: the (address, size) pair returned on
success. -/
structure MemoryBlock where
  ptr : Nat
  size : Nat
deriving DecidableEq

/-- Model of `AllocInit::init(memory)`: zero the whole block under `Zeroed`, leave
memory untouched under `Uninitialized`. -/
def AllocInit.init : AllocInit → MemoryBlock → Mem → Mem
  | .Uninitialized, _, m => m
  | .Zeroed, b, m => fun x => if b.ptr ≤ x ∧ x < b.ptr + b.size then 0 else m x

/-- The `core::alloc::ReallocPlacement` request. -/
inductive ReallocPlacement
  | InPlace
  | MayMove
deriving DecidableEq

/-- The pool table exposed by the `Allocator` trait: an ordered fixed-length
sequence of pools; `POOL_COUNT` is its length. -/
abbrev Heap := List Pool

/-- The value produced by the modelled unchecked pool access when the index is
out of range (the source makes such an access undefined behavior; the probe
theorems show every access of the dispatch logic is in range). -/
def defaultPool : Pool := ⟨0, 0, 0, [], 0⟩

/-- Model of `Allocator::get_pool_unchecked` for a single index. -/
def getPool (h : Heap) (i : Nat) : Pool := h.getD i defaultPool

/-- The `while right > left` loop of `binary_search`, with fuel dominating
`right - left`. -/
def binarySearchAux (fits : Pool → Bool) (h : Heap) : Nat → Nat → Nat → Nat
  | 0, left, _ => left
  | fuel + 1, left, right =>
    if right > left then
      let middle := left + (right - left) / 2
      if fits (getPool h middle) then
        binarySearchAux fits h fuel left middle
      else
        binarySearchAux fits h fuel (middle + 1) right
    else
      left

/-- Model of `binary_search`: lower-bound search over the pool table; the method call
`value.fits(pool)` of the source is passed as the predicate `fits`. -/
def binary_search (fits : Pool → Bool) (h : Heap) : Nat :=
  binarySearchAux fits h h.length 0 h.length

/-- Modelled from the spec: the `Fits` implementation for a size request
(`&Layout`): `requested ≤ block_size`. -/
def fitsSize (l : Layout) (p : Pool) : Bool := l.size ≤ p.size

/-- Modelled from the spec: the `Fits` implementation for a raw address
(`NonNull<u8>`): `addr < base + block_size·capacity`. -/
def fitsAddr (addr : Nat) (p : Pool) : Bool := addr < p.base + p.size * p.capacity

/-- The scan loop of `alloc` (`for pool_idx in start..A::POOL_COUNT`), with
fuel dominating the number of remaining indices. -/
def allocLoop (h : Heap) (init : AllocInit) (m : Mem) :
    Nat → Nat → Except AllocErr MemoryBlock × Heap × Mem
  | 0, _ => (.error .mk, h, m)
  | fuel + 1, i =>
    if i < h.length then
      match (getPool h i).alloc with
      | some br =>
        let memory : MemoryBlock := ⟨br.1, (getPool h i).size⟩
        (.ok memory, h.set i br.2, AllocInit.init init memory m)
      | none => allocLoop h init m fuel (i + 1)
    else
      (.error .mk, h, m)

/-- Model of `alloc`: zero-size requests short-circuit to a dangling block; otherwise
scan the pools upward from the binary-search index. -/
def alloc (h : Heap) (layout : Layout) (init : AllocInit) (m : Mem) :
    Except AllocErr MemoryBlock × Heap × Mem :=
  if layout.size = 0 then
    (.ok ⟨layout.dangling, 0⟩, h, m)
  else
    allocLoop h init m h.length (binary_search (fitsSize layout) h)

/-- Model of `dealloc`: zero-size layouts are a no-op; otherwise resolve the owning pool
by address search and push the block on its free list. -/
def dealloc (h : Heap) (ptr : Nat) (layout : Layout) (m : Mem) : Heap × Mem :=
  if layout.size = 0 then
    (h, m)
  else
    let i := binary_search (fitsAddr ptr) h
    let pm := (getPool h i).dealloc m ptr
    (h.set i pm.1, pm.2)

/-- Model of `grow`: `InPlace` always fails; `MayMove` with an unchanged size is a
no-op; otherwise allocate a block of `new_size`, copy `layout.size` bytes from
the old block, free the old block. -/
def grow (h : Heap) (ptr : Nat) (layout : Layout) (new_size : Nat)
    (placement : ReallocPlacement) (init : AllocInit) (m : Mem) :
    Except AllocErr MemoryBlock × Heap × Mem :=
  match placement with
  | .InPlace => (.error .mk, h, m)
  | .MayMove =>
    if new_size = layout.size then
      (.ok ⟨ptr, layout.size⟩, h, m)
    else
      match alloc h ⟨new_size, layout.align⟩ init m with
      | (.error e, h1, m1) => (.error e, h1, m1)
      | (.ok new_memory, h1, m1) =>
        let m2 := copyBytes m1 ptr new_memory.ptr layout.size
        let hm := dealloc h1 ptr layout m2
        (.ok new_memory, hm.1, hm.2)

/-- Model of `shrink`: `InPlace` always fails; `MayMove` with an unchanged size is a
no-op; otherwise allocate an uninitialized block of `new_size`, copy
`new_size` bytes from the old block, free the old block. -/
def shrink (h : Heap) (ptr : Nat) (layout : Layout) (new_size : Nat)
    (placement : ReallocPlacement) (m : Mem) :
    Except AllocErr MemoryBlock × Heap × Mem :=
  match placement with
  | .InPlace => (.error .mk, h, m)
  | .MayMove =>
    if new_size = layout.size then
      (.ok ⟨ptr, layout.size⟩, h, m)
    else
      match alloc h ⟨new_size, layout.align⟩ AllocInit.Uninitialized m with
      | (.error e, h1, m1) => (.error e, h1, m1)
      | (.ok new_memory, h1, m1) =>
        let m2 := copyBytes m1 ptr new_memory.ptr new_size
        let hm := dealloc h1 ptr layout m2
        (.ok new_memory, hm.1, hm.2)

/-- The pool-table indices probed (passed to the unchecked accessor) by the
`binary_search` loop, in order. -/
def binarySearchProbes (fits : Pool → Bool) (h : Heap) : Nat → Nat → Nat → List Nat
  | 0, _, _ => []
  | fuel + 1, left, right =>
    if right > left then
      let middle := left + (right - left) / 2
      middle ::
        (if fits (getPool h middle) then
          binarySearchProbes fits h fuel left middle
        else
          binarySearchProbes fits h fuel (middle + 1) right)
    else
      []

/-- The pool-table indices probed by the scan loop of `alloc`, in order. -/
def allocProbes (h : Heap) : Nat → Nat → List Nat
  | 0, _ => []
  | fuel + 1, i =>
    if i < h.length then
      i ::
        (match (getPool h i).alloc with
        | some _ => []
        | none => allocProbes h fuel (i + 1))
    else
      []

/-- The ten-pool reference table of the repository's tests: block sizes
`{2,5,8,12,16,23,38,56,72,91}`, capacity 100 each, contiguous bases. -/
def table10 : Heap :=
  [⟨20, 2, 100, [], 0⟩, ⟨220, 5, 100, [], 0⟩, ⟨720, 8, 100, [], 0⟩,
   ⟨1520, 12, 100, [], 0⟩, ⟨2720, 16, 100, [], 0⟩, ⟨4320, 23, 100, [], 0⟩,
   ⟨6620, 38, 100, [], 0⟩, ⟨10420, 56, 100, [], 0⟩, ⟨16020, 72, 100, [], 0⟩,
   ⟨23220, 91, 100, [], 0⟩]

/-- A memory filled with a recognizable pattern, used by concrete witnesses. -/
def mem0 : Mem := fun x => x % 256

/-- A six-pool table whose best-fit pool for a size-15 request (the 16-byte
pool, index 4) is exhausted while the larger 23-byte pool still has room. -/
def tableC2 : Heap :=
  [⟨20, 2, 10, [], 0⟩, ⟨220, 5, 10, [], 0⟩, ⟨720, 8, 10, [], 0⟩,
   ⟨1520, 12, 10, [], 0⟩, ⟨2720, 16, 10, [], 10⟩, ⟨4320, 23, 10, [], 0⟩]

/-- A single fully exhausted pool. -/
def tableC4 : Heap := [⟨100, 2, 1, [], 1⟩]

/-- A two-pool table with an 8-byte block handed out at 1000 and a free
16-byte pool at 2000, used by the relocation witnesses. -/
def tableC3 : Heap := [⟨1000, 8, 10, [], 1⟩, ⟨2000, 16, 10, [], 0⟩]

/-- A two-pool table (2-byte blocks at 100, 23-byte blocks at 300) on which a
mis-directed resize escapes a block's bounds: the copy witnesses of C10. -/
def tableC10 : Heap := [⟨100, 2, 20, [], 10⟩, ⟨300, 23, 10, [], 1⟩]

instance : DecidableEq (Except AllocErr MemoryBlock)
  | .error a, .error b => .isTrue (by cases a; cases b; rfl)
  | .error _, .ok _ => .isFalse (by simp)
  | .ok _, .error _ => .isFalse (by simp)
  | .ok a, .ok b =>
    if h : a = b then .isTrue (by rw [h]) else .isFalse (by simp [h])

/-- Indexing an updated table at the updated position. -/
theorem getPool_set_self (h : Heap) (i : Nat) (p : Pool) (hi : i < h.length) :
    getPool (h.set i p) i = p := by
  induction h generalizing i with
  | nil => simp at hi
  | cons a t ih =>
    cases i with
    | zero => simp [getPool]
    | succ n =>
      have := ih n (by simpa using hi)
      simpa [getPool, List.set] using this

/-- Loop invariant of the `binary_search` loop: starting from a window
`[left, right)` with everything below `left` unfit and everything from `right`
on fit, the loop lands on the boundary. -/
theorem binarySearchAux_spec (fits : Pool → Bool) (h : Heap)
    (mono : ∀ j, j < h.length → ∀ i, i ≤ j →
      fits (getPool h i) = true → fits (getPool h j) = true) :
    ∀ fuel left right, right - left ≤ fuel → left ≤ right → right ≤ h.length →
      (∀ j, j < left → fits (getPool h j) = false) →
      (∀ j, right ≤ j → j < h.length → fits (getPool h j) = true) →
      left ≤ binarySearchAux fits h fuel left right ∧
      binarySearchAux fits h fuel left right ≤ right ∧
      (∀ j, j < binarySearchAux fits h fuel left right → fits (getPool h j) = false) ∧
      (binarySearchAux fits h fuel left right < h.length →
        fits (getPool h (binarySearchAux fits h fuel left right)) = true) := by
  intro fuel
  induction fuel with
  | zero =>
    intro left right hfuel hlr hrlen hlow hhigh
    have hrl : right = left := by omega
    simp only [binarySearchAux]
    exact ⟨le_refl _, by omega, hlow, fun hlt => hhigh left (by omega) hlt⟩
  | succ fuel ih =>
    intro left right hfuel hlr hrlen hlow hhigh
    simp only [binarySearchAux]
    by_cases hgt : right > left
    · rw [if_pos hgt]
      have hm1 : left ≤ left + (right - left) / 2 := by omega
      have hm2 : left + (right - left) / 2 < right := by omega
      have hmlen : left + (right - left) / 2 < h.length := by omega
      by_cases hf : fits (getPool h (left + (right - left) / 2)) = true
      · rw [if_pos hf]
        have hrec := ih left (left + (right - left) / 2) (by omega) hm1 (by omega) hlow
          (fun j hj hjlen => mono j hjlen _ hj hf)
        exact ⟨hrec.1, by omega, hrec.2.2.1, hrec.2.2.2⟩
      · rw [if_neg hf]
        have hlow' : ∀ j, j < left + (right - left) / 2 + 1 →
            fits (getPool h j) = false := by
          intro j hj
          by_cases hjl : j < left
          · exact hlow j hjl
          · rcases Bool.eq_false_or_eq_true (fits (getPool h j)) with hb | hb
            · exact absurd (mono _ hmlen j (by omega) hb) hf
            · exact hb
        have hrec := ih (left + (right - left) / 2 + 1) right (by omega) (by omega)
          hrlen hlow' hhigh
        exact ⟨by omega, hrec.2.1, hrec.2.2.1, hrec.2.2.2⟩
    · rw [if_neg hgt]
      have hrl : right = left := by omega
      exact ⟨le_refl _, by omega, hlow, fun hlt => hhigh left (by omega) hlt⟩

/-- The function `binary_search` is a lower-bound search: everything below the result is
unfit, and the result is fit whenever it is a valid index. -/
theorem binary_search_spec (fits : Pool → Bool) (h : Heap)
    (mono : ∀ j, j < h.length → ∀ i, i ≤ j →
      fits (getPool h i) = true → fits (getPool h j) = true) :
    binary_search fits h ≤ h.length ∧
    (∀ j, j < binary_search fits h → fits (getPool h j) = false) ∧
    (binary_search fits h < h.length →
      fits (getPool h (binary_search fits h)) = true) := by
  have := binarySearchAux_spec fits h mono h.length 0 h.length (by omega) (by omega)
    (le_refl _) (fun j hj => absurd hj (Nat.not_lt_zero j))
    (fun j hj hjlen => absurd hjlen (by omega))
  exact ⟨this.2.1, this.2.2.1, this.2.2.2⟩

/-- Table sortedness makes the size predicate monotone along the table. -/
theorem fitsSize_mono (h : Heap)
    (sorted : ∀ j, j < h.length → ∀ i, i ≤ j →
      (getPool h i).size ≤ (getPool h j).size) (l : Layout) :
    ∀ j, j < h.length → ∀ i, i ≤ j →
      fitsSize l (getPool h i) = true → fitsSize l (getPool h j) = true := by
  intro j hj i hij hf
  simp only [fitsSize, decide_eq_true_eq] at hf ⊢
  exact le_trans hf (sorted j hj i hij)

/-- C1: for every monotone `fits` predicate, `binary_search` returns the
smallest index whose pool fits, and the pool count when no pool fits; on the
reference table `{2,5,8,12,16,23,38,56,72,91}` a size query of 15 resolves to
the 16-byte pool (index 4), 17 resolves to the 23-byte pool (index 5), and 92
resolves to the table length 10. -/
theorem C1_binary_search_lower_bound (fits : Pool → Bool) (h : Heap)
    (mono : ∀ j, j < h.length → ∀ i, i ≤ j →
      fits (getPool h i) = true → fits (getPool h j) = true) :
    binary_search fits h ≤ h.length ∧
    (∀ j, j < binary_search fits h → fits (getPool h j) = false) ∧
    (binary_search fits h < h.length →
      fits (getPool h (binary_search fits h)) = true) ∧
    ((∀ j, j < h.length → fits (getPool h j) = false) →
      binary_search fits h = h.length) ∧
    binary_search (fitsSize ⟨15, 4⟩) table10 = 4 ∧
    binary_search (fitsSize ⟨17, 4⟩) table10 = 5 ∧
    binary_search (fitsSize ⟨92, 4⟩) table10 = 10 := by
  obtain ⟨hle, hbelow, hat⟩ := binary_search_spec fits h mono
  refine ⟨hle, hbelow, hat, ?_, by decide, by decide, by decide⟩
  intro hnone
  by_contra hne
  have hlt : binary_search fits h < h.length := by omega
  exact absurd (hat hlt) (by simp [hnone _ hlt])

/-- Witness for C1 on the reference table: the monotonicity hypothesis holds
for the size-15 query, and the searched indices are as claimed. -/
theorem C1_binary_search_lower_bound_witness :
    binary_search (fitsSize ⟨15, 4⟩) table10 ≤ table10.length ∧
    binary_search (fitsSize ⟨15, 4⟩) table10 = 4 ∧
    binary_search (fitsSize ⟨17, 4⟩) table10 = 5 ∧
    binary_search (fitsSize ⟨92, 4⟩) table10 = 10 := by
  have hc := C1_binary_search_lower_bound (fitsSize ⟨15, 4⟩) table10 (by decide)
  exact ⟨hc.1, hc.2.2.2.2.1, hc.2.2.2.2.2.1, hc.2.2.2.2.2.2⟩

/-- C8: on a table with sorted block sizes, the search index is monotone in
the requested size. -/
theorem C8_search_monotone (h : Heap) (l1 l2 : Layout)
    (sorted : ∀ j, j < h.length → ∀ i, i ≤ j →
      (getPool h i).size ≤ (getPool h j).size)
    (h12 : l1.size ≤ l2.size) :
    binary_search (fitsSize l1) h ≤ binary_search (fitsSize l2) h := by
  obtain ⟨hle1, hbelow1, hat1⟩ :=
    binary_search_spec (fitsSize l1) h (fitsSize_mono h sorted l1)
  obtain ⟨hle2, hbelow2, hat2⟩ :=
    binary_search_spec (fitsSize l2) h (fitsSize_mono h sorted l2)
  by_contra hcon
  have hlt : binary_search (fitsSize l2) h < binary_search (fitsSize l1) h := by omega
  have h2len : binary_search (fitsSize l2) h < h.length := by omega
  have hfits2 := hat2 h2len
  have hfits1 : fitsSize l1 (getPool h (binary_search (fitsSize l2) h)) = true := by
    simp only [fitsSize, decide_eq_true_eq] at hfits2 ⊢
    omega
  have := hbelow1 _ hlt
  simp [hfits1] at this

/-- Witness for C8: size queries 15 ≤ 17 on the sorted reference table give
search indices 4 ≤ 5. -/
theorem C8_search_monotone_witness :
    binary_search (fitsSize ⟨15, 4⟩) table10 ≤ binary_search (fitsSize ⟨17, 4⟩) table10 :=
  C8_search_monotone table10 ⟨15, 4⟩ ⟨17, 4⟩ (by decide) (by decide)

/-- The indices probed by the search loop stay inside the window `[left, right)`
and their number is bounded by the loop measure `right - left`. -/
theorem binarySearchProbes_spec (fits : Pool → Bool) (h : Heap) :
    ∀ fuel left right, right - left ≤ fuel →
      (∀ j ∈ binarySearchProbes fits h fuel left right, left ≤ j ∧ j < right) ∧
      (binarySearchProbes fits h fuel left right).length ≤ right - left := by
  intro fuel
  induction fuel with
  | zero =>
    intro left right hfuel
    simp [binarySearchProbes]
  | succ fuel ih =>
    intro left right hfuel
    simp only [binarySearchProbes]
    by_cases hgt : right > left
    · rw [if_pos hgt]
      by_cases hf : fits (getPool h (left + (right - left) / 2)) = true
      · rw [if_pos hf]
        have hrec := ih left (left + (right - left) / 2) (by omega)
        constructor
        · intro j hj
          rcases List.mem_cons.mp hj with hj | hj
          · omega
          · have := hrec.1 j hj
            omega
        · simp only [List.length_cons]
          have := hrec.2
          omega
      · rw [if_neg hf]
        have hrec := ih (left + (right - left) / 2 + 1) right (by omega)
        constructor
        · intro j hj
          rcases List.mem_cons.mp hj with hj | hj
          · omega
          · have := hrec.1 j hj
            omega
        · simp only [List.length_cons]
          have := hrec.2
          omega
    · rw [if_neg hgt]
      simp

/-- The indices probed by the scan loop of `alloc` stay inside
`[i, h.length)`. -/
theorem allocProbes_spec (h : Heap) :
    ∀ fuel i, ∀ j ∈ allocProbes h fuel i, i ≤ j ∧ j < h.length := by
  intro fuel
  induction fuel with
  | zero =>
    intro i j hj
    simp [allocProbes] at hj
  | succ fuel ih =>
    intro i j hj
    simp only [allocProbes] at hj
    by_cases hi : i < h.length
    · rw [if_pos hi] at hj
      rcases List.mem_cons.mp hj with hj | hj
      · omega
      · rcases hmatch : (getPool h i).alloc with _ | br
        · rw [hmatch] at hj
          have := ih (i + 1) j hj
          omega
        · rw [hmatch] at hj
          simp at hj
    · rw [if_neg hi] at hj
      simp at hj

/-- C9: every pool access of `binary_search` (probing `middle`) satisfies
`left ≤ middle < right ≤ POOL_COUNT`, every access of the scan loop of `alloc`
uses an index below `POOL_COUNT`, so the out-of-bounds branch of the unchecked
accessor is unreachable; the probe count is bounded by the initial loop
measure `right - left`, which strictly decreases each iteration. -/
theorem C9_access_bounds (fits : Pool → Bool) (h : Heap) (left right i : Nat)
    (hrlen : right ≤ h.length) :
    (∀ j ∈ binarySearchProbes fits h h.length left right,
      left ≤ j ∧ j < right ∧ j < h.length) ∧
    (binarySearchProbes fits h h.length left right).length ≤ right - left ∧
    (∀ j ∈ allocProbes h h.length i, j < h.length) := by
  have hp := binarySearchProbes_spec fits h h.length left right (by omega)
  refine ⟨?_, hp.2, ?_⟩
  · intro j hj
    have := hp.1 j hj
    omega
  · intro j hj
    exact (allocProbes_spec h h.length i j hj).2

/-- If every pool from index `i` on is exhausted, the scan loop fails and
leaves the table and the memory untouched. -/
theorem allocLoop_exhausted (h : Heap) (init : AllocInit) (m : Mem) :
    ∀ fuel i, (∀ j, j < h.length → i ≤ j → (getPool h j).alloc = none) →
      allocLoop h init m fuel i = (.error .mk, h, m) := by
  intro fuel
  induction fuel with
  | zero => intro i _; rfl
  | succ fuel ih =>
    intro i hnone
    simp only [allocLoop]
    by_cases hi : i < h.length
    · rw [if_pos hi, hnone i hi (le_refl i)]
      exact ih (i + 1) (fun j hj hij => hnone j hj (by omega))
    · rw [if_neg hi]

/-- The scan loop returns the block of the first pool that yields one, with
that pool's block size as the handle size, updating only that pool and
applying the initialization policy. -/
theorem allocLoop_first (h : Heap) (init : AllocInit) (m : Mem) :
    ∀ fuel i t ptr p', i ≤ t → t < h.length → t < i + fuel →
      (∀ j, j < t → i ≤ j → (getPool h j).alloc = none) →
      (getPool h t).alloc = some (ptr, p') →
      allocLoop h init m fuel i =
        (.ok ⟨ptr, (getPool h t).size⟩, h.set t p',
         AllocInit.init init ⟨ptr, (getPool h t).size⟩ m) := by
  intro fuel
  induction fuel with
  | zero => intro i t ptr p' hit htlen hfuel _ _; omega
  | succ fuel ih =>
    intro i t ptr p' hit htlen hfuel hnone hsome
    simp only [allocLoop]
    rw [if_pos (show i < h.length by omega)]
    by_cases heq : i = t
    · subst heq
      rw [hsome]
    · rw [hnone i (by omega) (le_refl i)]
      exact ih (i + 1) t ptr p' (by omega) htlen (by omega)
        (fun j hj hij => hnone j hj (by omega)) hsome

/-- A failing scan loop changes nothing. -/
theorem allocLoop_error_frame (h : Heap) (init : AllocInit) (m : Mem) :
    ∀ fuel i, (allocLoop h init m fuel i).1 = .error .mk →
      allocLoop h init m fuel i = (.error .mk, h, m) := by
  intro fuel
  induction fuel with
  | zero => intro i _; rfl
  | succ fuel ih =>
    intro i herr
    simp only [allocLoop] at herr ⊢
    by_cases hi : i < h.length
    · rw [if_pos hi] at herr ⊢
      rcases hmatch : (getPool h i).alloc with _ | br
      · rw [hmatch] at herr
        exact ih (i + 1) herr
      · rw [hmatch] at herr
        simp at herr
    · rw [if_neg hi]

/-- A failing `alloc` changes nothing. -/
theorem alloc_error_frame (h : Heap) (l : Layout) (init : AllocInit) (m : Mem)
    (herr : (alloc h l init m).1 = .error .mk) :
    alloc h l init m = (.error .mk, h, m) := by
  by_cases hz : l.size = 0
  · simp [alloc, hz] at herr
  · simp only [alloc, if_neg hz] at herr ⊢
    exact allocLoop_error_frame h init m h.length _ herr

/-- C2: for a non-zero request, `alloc` scans the pools upward from the
binary-search index; it fails with the exhaustion error (leaving everything
unchanged) when every pool from that index on is exhausted, and otherwise
returns the block of the first pool that yields one, with the handle size
equal to that pool's block size. -/
theorem C2_alloc_scan (h : Heap) (layout : Layout) (init : AllocInit) (m : Mem)
    (hnz : layout.size ≠ 0) :
    ((∀ j, j < h.length → binary_search (fitsSize layout) h ≤ j →
        (getPool h j).alloc = none) →
      alloc h layout init m = (.error .mk, h, m)) ∧
    (∀ t ptr p', t < h.length → binary_search (fitsSize layout) h ≤ t →
      (∀ j, j < t → binary_search (fitsSize layout) h ≤ j →
        (getPool h j).alloc = none) →
      (getPool h t).alloc = some (ptr, p') →
      alloc h layout init m =
        (.ok ⟨ptr, (getPool h t).size⟩, h.set t p',
         AllocInit.init init ⟨ptr, (getPool h t).size⟩ m)) := by
  constructor
  · intro hnone
    simp only [alloc, if_neg hnz]
    exact allocLoop_exhausted h init m h.length _ hnone
  · intro t ptr p' htlen hst hnone hsome
    simp only [alloc, if_neg hnz]
    exact allocLoop_first h init m h.length _ t ptr p' hst htlen (by omega)
      hnone hsome

/-- Witness for C2: the best-fit 16-byte pool is exhausted, so a size-15
request escalates to the 23-byte pool and succeeds with its block size 23. -/
theorem C2_alloc_scan_witness :
    alloc tableC2 ⟨15, 4⟩ .Uninitialized mem0 =
      (.ok ⟨4320, (getPool tableC2 5).size⟩, tableC2.set 5 ⟨4320, 23, 10, [], 1⟩,
       AllocInit.init .Uninitialized ⟨4320, (getPool tableC2 5).size⟩ mem0) :=
  (C2_alloc_scan tableC2 ⟨15, 4⟩ .Uninitialized mem0 (by decide)).2 5 4320
    ⟨4320, 23, 10, [], 1⟩ (by decide) (by decide) (by decide) (by decide)

/-- C4: when the internal allocation of a relocating `grow` or `shrink`
fails, the operation reports the failure with the pool table and the memory
unchanged: the original block is never freed and no pool is mutated. -/
theorem C4_resize_failure_frame (h : Heap) (ptr : Nat) (layout : Layout)
    (new_size : Nat) (init : AllocInit) (m : Mem) (hne : new_size ≠ layout.size) :
    (((alloc h ⟨new_size, layout.align⟩ init m).1 = .error .mk) →
      grow h ptr layout new_size .MayMove init m = (.error .mk, h, m)) ∧
    (((alloc h ⟨new_size, layout.align⟩ .Uninitialized m).1 = .error .mk) →
      shrink h ptr layout new_size .MayMove m = (.error .mk, h, m)) := by
  constructor
  · intro herr
    have hfull := alloc_error_frame h ⟨new_size, layout.align⟩ init m herr
    simp only [grow, if_neg hne]
    rw [hfull]
  · intro herr
    have hfull := alloc_error_frame h ⟨new_size, layout.align⟩ .Uninitialized m herr
    simp only [shrink, if_neg hne]
    rw [hfull]

/-- Witness for C4: with the only pool exhausted, resizing a 2-byte block to
1 byte fails and leaves the table and the memory unchanged. -/
theorem C4_resize_failure_frame_witness :
    grow tableC4 100 ⟨2, 1⟩ 1 .MayMove .Uninitialized mem0 =
      (.error .mk, tableC4, mem0) ∧
    shrink tableC4 100 ⟨2, 1⟩ 1 .MayMove mem0 = (.error .mk, tableC4, mem0) :=
  ⟨(C4_resize_failure_frame tableC4 100 ⟨2, 1⟩ 1 .Uninitialized mem0 (by decide)).1
      (by decide),
   (C4_resize_failure_frame tableC4 100 ⟨2, 1⟩ 1 .Uninitialized mem0 (by decide)).2
      (by decide)⟩

/-- C5: a zero-size request succeeds immediately with the distinguished
dangling handle of size 0 and touches neither the pool table nor the memory,
and a zero-size `dealloc` is a no-op. -/
theorem C5_zero_size (h : Heap) (layout : Layout) (ptr : Nat) (init : AllocInit)
    (m : Mem) (hz : layout.size = 0) :
    alloc h layout init m = (.ok ⟨layout.dangling, 0⟩, h, m) ∧
    dealloc h ptr layout m = (h, m) := by
  constructor
  · simp [alloc, hz]
  · simp [dealloc, hz]

/-- Witness for C5 on the reference table with a zero-size layout of
alignment 4. -/
theorem C5_zero_size_witness :
    alloc table10 ⟨0, 4⟩ .Uninitialized mem0 = (.ok ⟨4, 0⟩, table10, mem0) ∧
    dealloc table10 777 ⟨0, 4⟩ mem0 = (table10, mem0) :=
  C5_zero_size table10 ⟨0, 4⟩ 777 .Uninitialized mem0 (by decide)

/-- An uninitialized scan never writes memory. -/
theorem allocLoop_uninit_mem (h : Heap) (m : Mem) :
    ∀ fuel i, (allocLoop h .Uninitialized m fuel i).2.2 = m := by
  intro fuel
  induction fuel with
  | zero => intro i; rfl
  | succ fuel ih =>
    intro i
    simp only [allocLoop]
    by_cases hi : i < h.length
    · rw [if_pos hi]
      rcases hmatch : (getPool h i).alloc with _ | br
      · exact ih (i + 1)
      · rfl
    · rw [if_neg hi]

/-- An uninitialized `alloc` never writes memory. -/
theorem alloc_uninit_mem (h : Heap) (l : Layout) (m : Mem) :
    (alloc h l .Uninitialized m).2.2 = m := by
  by_cases hz : l.size = 0
  · simp [alloc, hz]
  · simp only [alloc, if_neg hz]
    exact allocLoop_uninit_mem h m h.length _

/-- A successful scan writes memory only inside the returned block. -/
theorem allocLoop_ok_mem (h : Heap) (init : AllocInit) (m : Mem)
    (bp bs : Nat) :
    ∀ fuel i, (allocLoop h init m fuel i).1 = .ok ⟨bp, bs⟩ →
      ∀ x, x < bp ∨ bp + bs ≤ x → (allocLoop h init m fuel i).2.2 x = m x := by
  intro fuel
  induction fuel with
  | zero => intro i hok; simp [allocLoop] at hok
  | succ fuel ih =>
    intro i hok x hx
    simp only [allocLoop] at hok ⊢
    by_cases hi : i < h.length
    · rw [if_pos hi] at hok ⊢
      rcases hmatch : (getPool h i).alloc with _ | br
      · rw [hmatch] at hok
        exact ih (i + 1) hok x hx
      · rw [hmatch] at hok
        have hinj : br.1 = bp ∧ (getPool h i).size = bs := by
          have hok' : Except.ok (ε := AllocErr)
              (⟨br.1, (getPool h i).size⟩ : MemoryBlock) = .ok ⟨bp, bs⟩ := hok
          simpa [MemoryBlock.mk.injEq] using hok'
        cases init with
        | Uninitialized => rfl
        | Zeroed =>
          show (if br.1 ≤ x ∧ x < br.1 + (getPool h i).size then 0 else m x) = m x
          rw [if_neg]
          intro hcon
          omega
    · rw [if_neg hi] at hok
      simp at hok

/-- A successful `alloc` writes memory only inside the returned block. -/
theorem alloc_ok_mem (h : Heap) (l : Layout) (init : AllocInit) (m : Mem)
    (bp bs : Nat) (hok : (alloc h l init m).1 = .ok ⟨bp, bs⟩) :
    ∀ x, x < bp ∨ bp + bs ≤ x → (alloc h l init m).2.2 x = m x := by
  by_cases hz : l.size = 0
  · intro x hx
    simp [alloc, hz]
  · simp only [alloc, if_neg hz] at hok ⊢
    exact allocLoop_ok_mem h init m bp bs h.length _ hok

/-- A successful zero-initializing scan zeroes the returned block. -/
theorem allocLoop_ok_zeroed (h : Heap) (m : Mem) (bp bs : Nat) :
    ∀ fuel i, (allocLoop h .Zeroed m fuel i).1 = .ok ⟨bp, bs⟩ →
      ∀ x, bp ≤ x → x < bp + bs → (allocLoop h .Zeroed m fuel i).2.2 x = 0 := by
  intro fuel
  induction fuel with
  | zero => intro i hok; simp [allocLoop] at hok
  | succ fuel ih =>
    intro i hok x hx1 hx2
    simp only [allocLoop] at hok ⊢
    by_cases hi : i < h.length
    · rw [if_pos hi] at hok ⊢
      rcases hmatch : (getPool h i).alloc with _ | br
      · rw [hmatch] at hok
        exact ih (i + 1) hok x hx1 hx2
      · rw [hmatch] at hok
        have hinj : br.1 = bp ∧ (getPool h i).size = bs := by
          have hok' : Except.ok (ε := AllocErr)
              (⟨br.1, (getPool h i).size⟩ : MemoryBlock) = .ok ⟨bp, bs⟩ := hok
          simpa [MemoryBlock.mk.injEq] using hok'
        have hcond : br.1 ≤ x ∧ x < br.1 + (getPool h i).size := ⟨by omega, by omega⟩
        show (if br.1 ≤ x ∧ x < br.1 + (getPool h i).size then 0 else m x) = 0
        rw [if_pos hcond]
    · rw [if_neg hi] at hok
      simp at hok

/-- A successful zero-initializing `alloc` zeroes the returned block. -/
theorem alloc_ok_zeroed (h : Heap) (l : Layout) (m : Mem) (bp bs : Nat)
    (hok : (alloc h l .Zeroed m).1 = .ok ⟨bp, bs⟩) :
    ∀ x, bp ≤ x → x < bp + bs → (alloc h l .Zeroed m).2.2 x = 0 := by
  by_cases hz : l.size = 0
  · simp only [alloc, if_pos hz] at hok
    have hinj : l.dangling = bp ∧ 0 = bs := by
      simpa [MemoryBlock.mk.injEq] using hok
    intro x hx1 hx2
    omega
  · simp only [alloc, if_neg hz] at hok ⊢
    exact allocLoop_ok_zeroed h m bp bs h.length _ hok

/-- Unfolding a relocating `grow` around its successful internal
allocation. -/
theorem grow_ok_eq (h : Heap) (ptr : Nat) (layout : Layout) (new_size : Nat)
    (init : AllocInit) (m : Mem) (blk : MemoryBlock) (h1 : Heap) (m1 : Mem)
    (hne : new_size ≠ layout.size)
    (he : alloc h ⟨new_size, layout.align⟩ init m = (.ok blk, h1, m1)) :
    grow h ptr layout new_size .MayMove init m =
      (.ok blk, (dealloc h1 ptr layout (copyBytes m1 ptr blk.ptr layout.size)).1,
       (dealloc h1 ptr layout (copyBytes m1 ptr blk.ptr layout.size)).2) := by
  simp only [grow, if_neg hne]
  rw [he]

/-- Unfolding a relocating `shrink` around its successful internal
allocation. -/
theorem shrink_ok_eq (h : Heap) (ptr : Nat) (layout : Layout) (new_size : Nat)
    (m : Mem) (blk : MemoryBlock) (h1 : Heap) (m1 : Mem)
    (hne : new_size ≠ layout.size)
    (he : alloc h ⟨new_size, layout.align⟩ .Uninitialized m = (.ok blk, h1, m1)) :
    shrink h ptr layout new_size .MayMove m =
      (.ok blk, (dealloc h1 ptr layout (copyBytes m1 ptr blk.ptr new_size)).1,
       (dealloc h1 ptr layout (copyBytes m1 ptr blk.ptr new_size)).2) := by
  simp only [shrink, if_neg hne]
  rw [he]

/-- Unfolding a non-trivial `dealloc`. -/
theorem dealloc_eq (h : Heap) (ptr : Nat) (layout : Layout) (m : Mem)
    (hnz : layout.size ≠ 0) :
    dealloc h ptr layout m =
      (h.set (binary_search (fitsAddr ptr) h)
         ((getPool h (binary_search (fitsAddr ptr) h)).dealloc m ptr).1,
       ((getPool h (binary_search (fitsAddr ptr) h)).dealloc m ptr).2) := by
  simp only [dealloc, if_neg hnz]

/-- Memory effect of a successful relocating `grow`: the old block's first
`layout.size` bytes end up at the start of the new block, and the rest of the
new block keeps whatever the internal allocation produced. -/
theorem grow_mem_spec (h : Heap) (ptr : Nat) (layout : Layout) (new_size : Nat)
    (init : AllocInit) (m : Mem) (bp bs : Nat)
    (hnz : layout.size ≠ 0) (hne : new_size ≠ layout.size)
    (hok : (alloc h ⟨new_size, layout.align⟩ init m).1 = .ok ⟨bp, bs⟩)
    (hdisj : ptr + max layout.size wordSize ≤ bp ∨
             bp + max bs (max layout.size new_size) ≤ ptr) :
    (grow h ptr layout new_size .MayMove init m).1 = .ok ⟨bp, bs⟩ ∧
    (∀ k, k < layout.size →
      (grow h ptr layout new_size .MayMove init m).2.2 (bp + k) = m (ptr + k)) ∧
    (∀ k, k < bs → layout.size ≤ k →
      (grow h ptr layout new_size .MayMove init m).2.2 (bp + k) =
        (alloc h ⟨new_size, layout.align⟩ init m).2.2 (bp + k)) ∧
    (init = .Zeroed → ∀ k, k < bs → layout.size ≤ k →
      (grow h ptr layout new_size .MayMove init m).2.2 (bp + k) = 0) := by
  rcases he : alloc h ⟨new_size, layout.align⟩ init m with ⟨r1, h1, m1⟩
  have hr1 : r1 = .ok ⟨bp, bs⟩ := by
    have hok' := hok
    rw [he] at hok'
    exact hok'
  subst hr1
  rw [grow_ok_eq h ptr layout new_size init m ⟨bp, bs⟩ h1 m1 hne he,
    dealloc_eq h1 ptr layout _ hnz]
  refine ⟨rfl, ?_, ?_, ?_⟩
  · intro k hk
    show ((getPool h1 (binary_search (fitsAddr ptr) h1)).dealloc
      (copyBytes m1 ptr bp layout.size) ptr).2 (bp + k) = m (ptr + k)
    simp only [Pool.dealloc, writeWord, copyBytes]
    rw [if_neg (by omega), if_pos (by omega : bp ≤ bp + k ∧ bp + k < bp + layout.size)]
    have hidx : bp + k - bp = k := by omega
    rw [hidx]
    have houtside := alloc_ok_mem h ⟨new_size, layout.align⟩ init m bp bs hok
      (ptr + k) (by omega)
    rw [he] at houtside
    exact houtside
  · intro k hk1 hk2
    show ((getPool h1 (binary_search (fitsAddr ptr) h1)).dealloc
      (copyBytes m1 ptr bp layout.size) ptr).2 (bp + k) = m1 (bp + k)
    simp only [Pool.dealloc, writeWord, copyBytes]
    rw [if_neg (by omega), if_neg (by omega)]
  · intro hinit k hk1 hk2
    subst hinit
    show ((getPool h1 (binary_search (fitsAddr ptr) h1)).dealloc
      (copyBytes m1 ptr bp layout.size) ptr).2 (bp + k) = 0
    simp only [Pool.dealloc, writeWord, copyBytes]
    rw [if_neg (by omega), if_neg (by omega)]
    have hzero := alloc_ok_zeroed h ⟨new_size, layout.align⟩ m bp bs hok
      (bp + k) (by omega) (by omega)
    rw [he] at hzero
    exact hzero

/-- After a successful relocating `grow`, the old address heads the free list
of the pool that owns it. -/
theorem grow_freed_spec (h : Heap) (ptr : Nat) (layout : Layout) (new_size : Nat)
    (init : AllocInit) (m : Mem) (bp bs : Nat)
    (hnz : layout.size ≠ 0) (hne : new_size ≠ layout.size)
    (hok : (alloc h ⟨new_size, layout.align⟩ init m).1 = .ok ⟨bp, bs⟩)
    (hdi : binary_search (fitsAddr ptr) (alloc h ⟨new_size, layout.align⟩ init m).2.1 <
      (alloc h ⟨new_size, layout.align⟩ init m).2.1.length) :
    (getPool (grow h ptr layout new_size .MayMove init m).2.1
       (binary_search (fitsAddr ptr)
         (alloc h ⟨new_size, layout.align⟩ init m).2.1)).free =
      ptr :: (getPool (alloc h ⟨new_size, layout.align⟩ init m).2.1
       (binary_search (fitsAddr ptr)
         (alloc h ⟨new_size, layout.align⟩ init m).2.1)).free := by
  rcases he : alloc h ⟨new_size, layout.align⟩ init m with ⟨r1, h1, m1⟩
  have hr1 : r1 = .ok ⟨bp, bs⟩ := by
    have hok' := hok
    rw [he] at hok'
    exact hok'
  subst hr1
  rw [he] at hdi
  rw [grow_ok_eq h ptr layout new_size init m ⟨bp, bs⟩ h1 m1 hne he,
    dealloc_eq h1 ptr layout _ hnz]
  show (getPool (h1.set (binary_search (fitsAddr ptr) h1)
      ((getPool h1 (binary_search (fitsAddr ptr) h1)).dealloc
        (copyBytes m1 ptr bp layout.size) ptr).1)
      (binary_search (fitsAddr ptr) h1)).free =
    ptr :: (getPool h1 (binary_search (fitsAddr ptr) h1)).free
  rw [getPool_set_self _ _ _ hdi]
  rfl

/-- Memory effect of a successful relocating `shrink`: exactly the first
`new_size` bytes of the old block are copied, and the rest of the new block is
left exactly as it was before the call (never zero-filled). -/
theorem shrink_mem_spec (h : Heap) (ptr : Nat) (layout : Layout) (new_size : Nat)
    (m : Mem) (bp bs : Nat)
    (hnz : layout.size ≠ 0) (hne : new_size ≠ layout.size)
    (hok : (alloc h ⟨new_size, layout.align⟩ .Uninitialized m).1 = .ok ⟨bp, bs⟩)
    (hdisj : ptr + max layout.size wordSize ≤ bp ∨
             bp + max bs (max layout.size new_size) ≤ ptr) :
    (shrink h ptr layout new_size .MayMove m).1 = .ok ⟨bp, bs⟩ ∧
    (∀ k, k < new_size →
      (shrink h ptr layout new_size .MayMove m).2.2 (bp + k) = m (ptr + k)) ∧
    (∀ k, k < bs → new_size ≤ k →
      (shrink h ptr layout new_size .MayMove m).2.2 (bp + k) = m (bp + k)) := by
  have hu := alloc_uninit_mem h ⟨new_size, layout.align⟩ m
  rcases he : alloc h ⟨new_size, layout.align⟩ .Uninitialized m with ⟨r1, h1, m1⟩
  have hr1 : r1 = .ok ⟨bp, bs⟩ := by
    have hok' := hok
    rw [he] at hok'
    exact hok'
  subst hr1
  rw [he] at hu
  have hm1 : m1 = m := hu
  rw [shrink_ok_eq h ptr layout new_size m ⟨bp, bs⟩ h1 m1 hne he,
    dealloc_eq h1 ptr layout _ hnz]
  refine ⟨rfl, ?_, ?_⟩
  · intro k hk
    show ((getPool h1 (binary_search (fitsAddr ptr) h1)).dealloc
      (copyBytes m1 ptr bp new_size) ptr).2 (bp + k) = m (ptr + k)
    simp only [Pool.dealloc, writeWord, copyBytes]
    rw [if_neg (by omega), if_pos (by omega : bp ≤ bp + k ∧ bp + k < bp + new_size)]
    have hidx : bp + k - bp = k := by omega
    rw [hidx, hm1]
  · intro k hk1 hk2
    show ((getPool h1 (binary_search (fitsAddr ptr) h1)).dealloc
      (copyBytes m1 ptr bp new_size) ptr).2 (bp + k) = m (bp + k)
    simp only [Pool.dealloc, writeWord, copyBytes]
    rw [if_neg (by omega), if_neg (by omega), hm1]

/-- After a successful relocating `shrink`, the old address heads the free
list of the pool that owns it. -/
theorem shrink_freed_spec (h : Heap) (ptr : Nat) (layout : Layout) (new_size : Nat)
    (m : Mem) (bp bs : Nat)
    (hnz : layout.size ≠ 0) (hne : new_size ≠ layout.size)
    (hok : (alloc h ⟨new_size, layout.align⟩ .Uninitialized m).1 = .ok ⟨bp, bs⟩)
    (hdi : binary_search (fitsAddr ptr)
        (alloc h ⟨new_size, layout.align⟩ .Uninitialized m).2.1 <
      (alloc h ⟨new_size, layout.align⟩ .Uninitialized m).2.1.length) :
    (getPool (shrink h ptr layout new_size .MayMove m).2.1
       (binary_search (fitsAddr ptr)
         (alloc h ⟨new_size, layout.align⟩ .Uninitialized m).2.1)).free =
      ptr :: (getPool (alloc h ⟨new_size, layout.align⟩ .Uninitialized m).2.1
       (binary_search (fitsAddr ptr)
         (alloc h ⟨new_size, layout.align⟩ .Uninitialized m).2.1)).free := by
  rcases he : alloc h ⟨new_size, layout.align⟩ .Uninitialized m with ⟨r1, h1, m1⟩
  have hr1 : r1 = .ok ⟨bp, bs⟩ := by
    have hok' := hok
    rw [he] at hok'
    exact hok'
  subst hr1
  rw [he] at hdi
  rw [shrink_ok_eq h ptr layout new_size m ⟨bp, bs⟩ h1 m1 hne he,
    dealloc_eq h1 ptr layout _ hnz]
  show (getPool (h1.set (binary_search (fitsAddr ptr) h1)
      ((getPool h1 (binary_search (fitsAddr ptr) h1)).dealloc
        (copyBytes m1 ptr bp new_size) ptr).1)
      (binary_search (fitsAddr ptr) h1)).free =
    ptr :: (getPool h1 (binary_search (fitsAddr ptr) h1)).free
  rw [getPool_set_self _ _ _ hdi]
  rfl

/-- C3: a successful relocating `grow` returns the freshly allocated block,
whose first `old_size` bytes equal the old block's contents and whose
remaining bytes carry exactly what the initialization policy produced (zero
under `Zeroed`, untouched memory otherwise) — never bytes copied from the old
block — and afterwards the old address heads its owning pool's free list; a
successful relocating `shrink` copies the first `new_size` bytes of the old
block and leaves the rest of the new block exactly as it was (never
zero-filled), and frees the old address likewise. -/
theorem C3_relocating_resize_content (h : Heap) (ptr : Nat) (layout : Layout)
    (new_size : Nat) (init : AllocInit) (m : Mem) (bp bs : Nat)
    (hnz : 0 < layout.size) (hne : new_size ≠ layout.size)
    (hdisj : ptr + max layout.size wordSize ≤ bp ∨
             bp + max bs (max layout.size new_size) ≤ ptr) :
    ((alloc h ⟨new_size, layout.align⟩ init m).1 = .ok ⟨bp, bs⟩ →
      (grow h ptr layout new_size .MayMove init m).1 = .ok ⟨bp, bs⟩ ∧
      (∀ k, k < layout.size →
        (grow h ptr layout new_size .MayMove init m).2.2 (bp + k) = m (ptr + k)) ∧
      (∀ k, k < bs → layout.size ≤ k →
        (grow h ptr layout new_size .MayMove init m).2.2 (bp + k) =
          (alloc h ⟨new_size, layout.align⟩ init m).2.2 (bp + k)) ∧
      (init = .Zeroed → ∀ k, k < bs → layout.size ≤ k →
        (grow h ptr layout new_size .MayMove init m).2.2 (bp + k) = 0) ∧
      (binary_search (fitsAddr ptr) (alloc h ⟨new_size, layout.align⟩ init m).2.1 <
          (alloc h ⟨new_size, layout.align⟩ init m).2.1.length →
        (getPool (grow h ptr layout new_size .MayMove init m).2.1
           (binary_search (fitsAddr ptr)
             (alloc h ⟨new_size, layout.align⟩ init m).2.1)).free =
          ptr :: (getPool (alloc h ⟨new_size, layout.align⟩ init m).2.1
           (binary_search (fitsAddr ptr)
             (alloc h ⟨new_size, layout.align⟩ init m).2.1)).free)) ∧
    ((alloc h ⟨new_size, layout.align⟩ .Uninitialized m).1 = .ok ⟨bp, bs⟩ →
      (shrink h ptr layout new_size .MayMove m).1 = .ok ⟨bp, bs⟩ ∧
      (∀ k, k < new_size →
        (shrink h ptr layout new_size .MayMove m).2.2 (bp + k) = m (ptr + k)) ∧
      (∀ k, k < bs → new_size ≤ k →
        (shrink h ptr layout new_size .MayMove m).2.2 (bp + k) = m (bp + k)) ∧
      (binary_search (fitsAddr ptr)
          (alloc h ⟨new_size, layout.align⟩ .Uninitialized m).2.1 <
          (alloc h ⟨new_size, layout.align⟩ .Uninitialized m).2.1.length →
        (getPool (shrink h ptr layout new_size .MayMove m).2.1
           (binary_search (fitsAddr ptr)
             (alloc h ⟨new_size, layout.align⟩ .Uninitialized m).2.1)).free =
          ptr :: (getPool (alloc h ⟨new_size, layout.align⟩ .Uninitialized m).2.1
           (binary_search (fitsAddr ptr)
             (alloc h ⟨new_size, layout.align⟩ .Uninitialized m).2.1)).free)) := by
  constructor
  · intro hok
    obtain ⟨g1, g2, g3, g4⟩ :=
      grow_mem_spec h ptr layout new_size init m bp bs (by omega) hne hok hdisj
    exact ⟨g1, g2, g3, g4, fun hdi =>
      grow_freed_spec h ptr layout new_size init m bp bs (by omega) hne hok hdi⟩
  · intro hok
    obtain ⟨s1, s2, s3⟩ :=
      shrink_mem_spec h ptr layout new_size m bp bs (by omega) hne hok hdisj
    exact ⟨s1, s2, s3, fun hdi =>
      shrink_freed_spec h ptr layout new_size m bp bs (by omega) hne hok hdi⟩

/-- Witness for C3: growing the 8-byte block at 1000 to 16 bytes under
`Zeroed` lands at 2000 with the old prefix copied, zeroes beyond it, and 1000
freed; shrinking it to 2 bytes lands at 1008 with the 2-byte prefix copied
and no zero-filling beyond. -/
theorem C3_relocating_resize_content_witness :
    (grow tableC3 1000 ⟨8, 1⟩ 16 .MayMove .Zeroed mem0).1 = .ok ⟨2000, 16⟩ ∧
    (grow tableC3 1000 ⟨8, 1⟩ 16 .MayMove .Zeroed mem0).2.2 (2000 + 3) =
      mem0 (1000 + 3) ∧
    (grow tableC3 1000 ⟨8, 1⟩ 16 .MayMove .Zeroed mem0).2.2 (2000 + 12) = 0 ∧
    (getPool (grow tableC3 1000 ⟨8, 1⟩ 16 .MayMove .Zeroed mem0).2.1
       (binary_search (fitsAddr 1000)
         (alloc tableC3 ⟨16, 1⟩ .Zeroed mem0).2.1)).free =
      1000 :: (getPool (alloc tableC3 ⟨16, 1⟩ .Zeroed mem0).2.1
       (binary_search (fitsAddr 1000)
         (alloc tableC3 ⟨16, 1⟩ .Zeroed mem0).2.1)).free ∧
    (shrink tableC3 1000 ⟨8, 1⟩ 2 .MayMove mem0).1 = .ok ⟨1008, 8⟩ ∧
    (shrink tableC3 1000 ⟨8, 1⟩ 2 .MayMove mem0).2.2 (1008 + 1) =
      mem0 (1000 + 1) ∧
    (shrink tableC3 1000 ⟨8, 1⟩ 2 .MayMove mem0).2.2 (1008 + 5) =
      mem0 (1008 + 5) := by
  have hg := (C3_relocating_resize_content tableC3 1000 ⟨8, 1⟩ 16 .Zeroed mem0
    2000 16 (by decide) (by decide) (by decide)).1 (by decide)
  have hs := (C3_relocating_resize_content tableC3 1000 ⟨8, 1⟩ 2 .Uninitialized
    mem0 1008 8 (by decide) (by decide) (by decide)).2 (by decide)
  exact ⟨hg.1, hg.2.1 3 (by decide), hg.2.2.2.1 rfl 12 (by decide) (by decide),
    hg.2.2.2.2 (by decide), hs.1, hs.2.1 1 (by decide),
    hs.2.2.1 5 (by decide) (by decide)⟩

/-- C6: in-place `grow` and `shrink` always fail with the
unsupported-placement error, regardless of the requested size (including an
unchanged size) and of available pool headroom, and leave the pool table and
the memory unchanged. -/
theorem C6_inplace_fails (h : Heap) (ptr : Nat) (layout : Layout)
    (new_size : Nat) (init : AllocInit) (m : Mem) :
    grow h ptr layout new_size .InPlace init m = (.error .mk, h, m) ∧
    shrink h ptr layout new_size .InPlace m = (.error .mk, h, m) :=
  ⟨rfl, rfl⟩

/-- C7: a `MayMove` resize to the unchanged size returns the identical
address with the same size and reads or mutates nothing: the pool table and
the memory come back untouched. -/
theorem C7_noop_resize (h : Heap) (ptr : Nat) (layout : Layout)
    (new_size : Nat) (init : AllocInit) (m : Mem) (heq : new_size = layout.size) :
    grow h ptr layout new_size .MayMove init m = (.ok ⟨ptr, layout.size⟩, h, m) ∧
    shrink h ptr layout new_size .MayMove m = (.ok ⟨ptr, layout.size⟩, h, m) := by
  constructor
  · simp only [grow, if_pos heq]
  · simp only [shrink, if_pos heq]

/-- Witness for C7: resizing an 8-byte block at 555 to 8 bytes is the
identity on the reference table. -/
theorem C7_noop_resize_witness :
    grow table10 555 ⟨8, 4⟩ 8 .MayMove .Uninitialized mem0 =
      (.ok ⟨555, 8⟩, table10, mem0) ∧
    shrink table10 555 ⟨8, 4⟩ 8 .MayMove mem0 = (.ok ⟨555, 8⟩, table10, mem0) :=
  C7_noop_resize table10 555 ⟨8, 4⟩ 8 .Uninitialized mem0 rfl

/-- A successful scan hands out a block of some pool at or after the start
index, whose block size is the handle size. -/
theorem allocLoop_ok_index (h : Heap) (init : AllocInit) (m : Mem) (bp bs : Nat) :
    ∀ fuel i, (allocLoop h init m fuel i).1 = .ok ⟨bp, bs⟩ →
      ∃ t, i ≤ t ∧ t < h.length ∧ bs = (getPool h t).size := by
  intro fuel
  induction fuel with
  | zero => intro i hok; simp [allocLoop] at hok
  | succ fuel ih =>
    intro i hok
    simp only [allocLoop] at hok
    by_cases hi : i < h.length
    · rw [if_pos hi] at hok
      rcases hmatch : (getPool h i).alloc with _ | br
      · rw [hmatch] at hok
        obtain ⟨t, ht1, ht2, ht3⟩ := ih (i + 1) hok
        exact ⟨t, by omega, ht2, ht3⟩
      · rw [hmatch] at hok
        have hok' : Except.ok (ε := AllocErr)
            (⟨br.1, (getPool h i).size⟩ : MemoryBlock) = .ok ⟨bp, bs⟩ := hok
        have hinj : br.1 = bp ∧ (getPool h i).size = bs := by
          simpa [MemoryBlock.mk.injEq] using hok'
        exact ⟨i, le_refl i, hi, hinj.2.symm⟩
    · rw [if_neg hi] at hok
      simp at hok

/-- On a sorted table, a successful non-zero `alloc` returns a block at least
as large as the request. -/
theorem alloc_ok_size_ge (h : Heap) (l : Layout) (init : AllocInit) (m : Mem)
    (bp bs : Nat) (hnz : l.size ≠ 0)
    (sorted : ∀ j, j < h.length → ∀ i, i ≤ j →
      (getPool h i).size ≤ (getPool h j).size)
    (hok : (alloc h l init m).1 = .ok ⟨bp, bs⟩) : l.size ≤ bs := by
  simp only [alloc, if_neg hnz] at hok
  obtain ⟨t, hst, htlen, hsz⟩ := allocLoop_ok_index h init m bp bs h.length _ hok
  obtain ⟨hle, hbelow, hat⟩ :=
    binary_search_spec (fitsSize l) h (fitsSize_mono h sorted l)
  have hfits := hat (by omega)
  simp only [fitsSize, decide_eq_true_eq] at hfits
  have hmono := sorted t htlen _ hst
  omega

/-- C10: `grow` copies exactly `old_size` bytes with no check against
`new_size` — on a sorted table the prefix stays within the new block exactly
under the unstated precondition `new_size ≥ old_size`, and a concrete grow of
a 23-byte block into a 2-byte pool block writes old-block bytes 10 past the
new block's start; symmetrically `shrink` copies exactly `new_size` bytes
read from the old block, and a concrete shrink of a 2-byte block with
`new_size = 23` reads old-block bytes 10 past the old block's start. -/
theorem C10_copy_extent (h : Heap) (ptr : Nat) (layout : Layout)
    (new_size : Nat) (init : AllocInit) (m : Mem) (bp bs : Nat)
    (hnz : 0 < layout.size) (hne : new_size ≠ layout.size) :
    ((alloc h ⟨new_size, layout.align⟩ init m).1 = .ok ⟨bp, bs⟩ →
     (ptr + max layout.size wordSize ≤ bp ∨
      bp + max bs (max layout.size new_size) ≤ ptr) →
      ∀ k, k < layout.size →
        (grow h ptr layout new_size .MayMove init m).2.2 (bp + k) = m (ptr + k)) ∧
    ((∀ j, j < h.length → ∀ i, i ≤ j →
        (getPool h i).size ≤ (getPool h j).size) →
     layout.size ≤ new_size →
     (alloc h ⟨new_size, layout.align⟩ init m).1 = .ok ⟨bp, bs⟩ →
      layout.size ≤ bs) ∧
    ((alloc tableC10 ⟨2, 1⟩ .Uninitialized mem0).1 = .ok ⟨120, 2⟩ ∧
     (grow tableC10 300 ⟨23, 1⟩ 2 .MayMove .Uninitialized mem0).2.2 (120 + 10) =
       mem0 (300 + 10)) ∧
    ((alloc h ⟨new_size, layout.align⟩ .Uninitialized m).1 = .ok ⟨bp, bs⟩ →
     (ptr + max layout.size wordSize ≤ bp ∨
      bp + max bs (max layout.size new_size) ≤ ptr) →
      ∀ k, k < new_size →
        (shrink h ptr layout new_size .MayMove m).2.2 (bp + k) = m (ptr + k)) ∧
    ((alloc tableC10 ⟨23, 1⟩ .Uninitialized mem0).1 = .ok ⟨323, 23⟩ ∧
     (shrink tableC10 118 ⟨2, 1⟩ 23 .MayMove mem0).2.2 (323 + 10) =
       mem0 (118 + 10)) := by
  refine ⟨?_, ?_, ⟨by decide, by decide⟩, ?_, ⟨by decide, by decide⟩⟩
  · intro hok hdisj k hk
    exact (grow_mem_spec h ptr layout new_size init m bp bs (by omega) hne
      hok hdisj).2.1 k hk
  · intro sorted hle hok
    have hge := alloc_ok_size_ge h ⟨new_size, layout.align⟩ init m bp bs
      (by simp; omega) sorted hok
    have hge' : new_size ≤ bs := hge
    omega
  · intro hok hdisj k hk
    exact (shrink_mem_spec h ptr layout new_size m bp bs (by omega) hne
      hok hdisj).2.1 k hk

/-- Witness for C10: the general copy-extent clauses instantiated on the
relocation table — the grown block's 8-byte prefix is the old content and
`8 ≤ 16` bounds it inside the new block; the shrunk block's 2-byte prefix is
the old content. -/
theorem C10_copy_extent_witness :
    (∀ k, k < 8 →
      (grow tableC3 1000 ⟨8, 1⟩ 16 .MayMove .Zeroed mem0).2.2 (2000 + k) =
        mem0 (1000 + k)) ∧
    (8 : Nat) ≤ 16 ∧
    (∀ k, k < 2 →
      (shrink tableC3 1000 ⟨8, 1⟩ 2 .MayMove mem0).2.2 (1008 + k) =
        mem0 (1000 + k)) := by
  have hc := C10_copy_extent tableC3 1000 ⟨8, 1⟩ 16 .Zeroed mem0 2000 16
    (by decide) (by decide)
  have hcs := C10_copy_extent tableC3 1000 ⟨8, 1⟩ 2 .Uninitialized mem0 1008 8
    (by decide) (by decide)
  refine ⟨fun k hk => hc.1 (by decide) (by decide) k hk,
    hc.2.1 (by decide) (by decide) (by decide),
    fun k hk => hcs.2.2.2.1 (by decide) (by decide) k hk⟩

/-- Witness for C9 on the reference table: the probe list of the size-17
search is `[4, 7, 5]` — wholly inside the window `[0, 10)` — and all scan
probes from index 0 are in range. -/
theorem C9_access_bounds_witness :
    (∀ j ∈ binarySearchProbes (fitsSize ⟨17, 4⟩) table10 table10.length 0 10,
      0 ≤ j ∧ j < 10 ∧ j < table10.length) ∧
    (binarySearchProbes (fitsSize ⟨17, 4⟩) table10 table10.length 0 10).length ≤
      10 - 0 ∧
    (∀ j ∈ allocProbes table10 table10.length 0, j < table10.length) :=
  C9_access_bounds (fitsSize ⟨17, 4⟩) table10 0 10 0 (by decide)
